import Mathlib

/-!
Verification development for the rib_drawer repository.

The rational-arithmetic part embeds the list/array computations of
`airfoilhandler.py`, `ribhandler.py` and `dxfdrawer.py` (point sequences,
surface splitting, airfoil mixing, the concatenation structure of the
outline resampler, bracing-hole placement and the batch draw loop) over `ℚ`.
The real-arithmetic part embeds the trigonometric computations
(`direct`, `offset`, the rear-spar hole center and the beam-hole
crosshairs) over `ℝ`.
-/

/-- A 2-D point, as a pair of rational coordinates. -/
abbrev QPt := ℚ × ℚ

/-- Semantics of `np.argmin(points[:, 0])`: a point is a global minimum of the
x-coordinates.  (`numpy` is an external library; `argmin` is modelled by its
documented behavior: the first index attaining the minimum.) -/
def isMinX (pts : List QPt) (p : QPt) : Bool :=
  decide (∀ q ∈ pts, p.1 ≤ q.1)

/-- Index of the first point of minimum x-coordinate (`np.argmin` on column 0). -/
def argminX (pts : List QPt) : Nat :=
  pts.findIdx (isMinX pts)

/-- Embeds `Airfoil.get_points` from `airfoilhandler.py`: `all` returns the whole
sequence, `upper` the prefix `points[:argmin+1]`, `lower` the suffix
`points[argmin:]`; any other filter string falls off the `if/elif` chain and
returns Python `None`, modelled as `none`. -/
def get_points (pts : List QPt) (filt : String) : Option (List QPt) :=
  if filt = "all" then some pts
  else if filt = "upper" then some (pts.take (argminX pts + 1))
  else if filt = "lower" then some (pts.drop (argminX pts))
  else none

/-- Embeds `np.linspace a b n`: `n` evenly spaced samples from `a` to `b` inclusive. -/
def linspace (a b : ℚ) (n : Nat) : List ℚ :=
  (List.range n).map (fun k : Nat => a + (b - a) * (k : ℚ) / ((n : ℚ) - 1))

/-- Sort a point list by x-coordinate (ascending); `scipy.interpolate.interp1d`
sorts its sample abscissas internally (`assume_sorted=False` is the default). -/
def sortByX (pts : List QPt) : List QPt :=
  List.insertionSort (fun p q : QPt => p.1 ≤ q.1) pts

/-- Piecewise-linear evaluation over an (ascending-x) breakpoint list: the
linear-kind interpolant of `scipy.interpolate.interp1d`. -/
def lerpSegs : List QPt → ℚ → ℚ
  | [], _ => 0
  | [p], _ => p.2
  | p :: q :: rest, x =>
    if x ≤ q.1 then p.2 + (q.2 - p.2) * (x - p.1) / (q.1 - p.1)
    else lerpSegs (q :: rest) x

/-- Embeds `interp1d(points[:,0], points[:,1])` with linear kind, evaluated at a query. -/
def interp1d (pts : List QPt) (x : ℚ) : ℚ :=
  lerpSegs (sortByX pts) x

/-- Constant `NUM_POINTS_FOR_MIX` from `airfoilhandler.py`. -/
def NUM_POINTS_FOR_MIX : Nat := 90

/-- Embeds `airfoilhandler.mix`: split both airfoils into upper/lower surfaces,
interpolate the y of each surface over the common grid `qx = linspace(0,1,90)`,
blend with `interpolated0 * r + interpolated1 * (1 - r)`, and reassemble the
loop as `upper_y` reversed followed by `lower_y[1:]`, with mirrored x. -/
def mixQ (airfoil0 airfoil1 : List QPt) (r : ℚ) : List QPt :=
  match get_points airfoil0 "upper", get_points airfoil1 "upper",
        get_points airfoil0 "lower", get_points airfoil1 "lower" with
  | some up0, some up1, some lo0, some lo1 =>
    let qx := linspace 0 1 NUM_POINTS_FOR_MIX
    let iu0 := qx.map (interp1d up0)
    let iu1 := qx.map (interp1d up1)
    let il0 := qx.map (interp1d lo0)
    let il1 := qx.map (interp1d lo1)
    let upper_y := List.zipWith (fun a b => a * r + b * (1 - r)) iu0 iu1
    let lower_y := List.zipWith (fun a b => a * r + b * (1 - r)) il0 il1
    let y := upper_y.reverse ++ lower_y.drop 1
    let x := qx.reverse ++ qx.drop 1
    x.zip y
  | _, _, _, _ => []

/-- Embeds `np.sum(points > t)` for a 2-column array: counts every entry of BOTH
columns exceeding the threshold, exactly as the broadcast comparison does in
`Rib.__draw_rib_outline`. -/
def npSumGt (pts : List QPt) (t : ℚ) : Nat :=
  pts.foldl (fun acc p =>
    acc + (if t < p.1 then 1 else 0) + (if t < p.2 then 1 else 0)) 0

/-- Count of the points whose x-coordinate exceeds the threshold — the
quantity the specification describes for the plank-end segmentation index. -/
def xCountGt (pts : List QPt) (t : ℚ) : Nat :=
  pts.countP (fun p => decide (t < p.1))

/-- The upper-capped segment before offsetting, as `Rib.__draw_rib_outline`
computes it: `upper_points[: np.sum(upper_points > chord*frac) + 1]`. -/
def ribcap_upper_segment (wing : List QPt) (chord fx : ℚ) : List QPt :=
  let upper_points := (get_points wing "upper").getD []
  upper_points.take (npSumGt upper_points (chord * fx) + 1)

/-- The upper-capped segment as the specification describes it: the prefix up
to and including the count of points with x beyond the threshold. -/
def ribcap_upper_segment_spec (wing : List QPt) (chord fx : ℚ) : List QPt :=
  let upper_points := (get_points wing "upper").getD []
  upper_points.take (xCountGt upper_points (chord * fx) + 1)

/-- Constant `NUM_POINTS_TO_DRAW_OUTLINE` from `ribhandler.py`. -/
def NUM_POINTS_TO_DRAW_OUTLINE : Nat := 200

/-- Semantics of `np.argmax(points[:, 1])`: first global maximum of y. -/
def isMaxY (pts : List QPt) (p : QPt) : Bool :=
  decide (∀ q ∈ pts, q.2 ≤ p.2)

/-- First index of maximum y-coordinate. -/
def argmaxY (pts : List QPt) : Nat :=
  pts.findIdx (isMaxY pts)

/-- Semantics of `np.argmin(points[:, 1])`: first global minimum of y. -/
def isMinY (pts : List QPt) (p : QPt) : Bool :=
  decide (∀ q ∈ pts, p.2 ≤ q.2)

/-- First index of minimum y-coordinate. -/
def argminY (pts : List QPt) : Nat :=
  pts.findIdx (isMinY pts)

/-- Head of a rational list with default 0 (the lists fed to it are nonempty). -/
def headQ (l : List ℚ) : ℚ := l.headD 0

/-- Last element of a rational list with default 0. -/
def lastQ (l : List ℚ) : ℚ := l.getLastD 0

/-- One arc of `Rib.__draw_airfoil_outline`: section 0 (rear-upper) is
reversed so x increases, section 1 (leading edge) swaps the roles of x and y,
section 2 (rear-lower) is used as is; the interpolant (scipy
`PchipInterpolator`, an external library, here a parameter — the structural
claims do not depend on it) is sampled at `linspace(x[0], x[-1], 200)` and the
result is un-reversed / un-swapped. -/
def resampleSec (interp : List ℚ → List ℚ → ℚ → ℚ) (i : Nat) (sec : List QPt) :
    List QPt :=
  let x := if i = 0 then (sec.reverse).map Prod.fst
           else if i = 1 then (sec.reverse).map Prod.snd
           else sec.map Prod.fst
  let y := if i = 0 then (sec.reverse).map Prod.snd
           else if i = 1 then (sec.reverse).map Prod.fst
           else sec.map Prod.snd
  let qx := linspace (headQ x) (lastQ x) NUM_POINTS_TO_DRAW_OUTLINE
  let qy := qx.map (interp x y)
  if i = 0 then (qx.zip qy).reverse
  else if i = 1 then (qy.zip qx).reverse
  else qx.zip qy

/-- The three raw sections `raw[:i0+1]`, `raw[i0:i1+1]`, `raw[i1:]` where
`i0 = argmax y` and `i1 = argmin y`. -/
def outlineSection (raw : List QPt) (i : Nat) : List QPt :=
  let i0 := argmaxY raw
  let i1 := argminY raw
  if i = 0 then raw.take (i0 + 1)
  else if i = 1 then (raw.drop i0).take (i1 + 1 - i0)
  else raw.drop i1

/-- The resampled arc number `i` of the outline. -/
def arcResampled (interp : List ℚ → List ℚ → ℚ → ℚ) (raw : List QPt) (i : Nat) :
    List QPt :=
  resampleSec interp i (outlineSection raw i)

/-- Embeds `Rib.__draw_airfoil_outline`: the loop drops the LAST point of every
resampled section (`interpolated_section[:-1]`), appends the trailing-edge
point `[1, 0]`, and scales everything by the chord. -/
def draw_airfoil_outline (interp : List ℚ → List ℚ → ℚ → ℚ) (raw : List QPt)
    (chord : ℚ) : List QPt :=
  ((((arcResampled interp raw 0).dropLast ++ (arcResampled interp raw 1).dropLast)
      ++ (arcResampled interp raw 2).dropLast) ++ [((1 : ℚ), (0 : ℚ))]).map
    (fun p => (p.1 * chord, p.2 * chord))

/-- The resampler output as claim C5 words it: the last point of each arc is
dropped EXCEPT that of the final arc, then the trailing-edge point is appended. -/
def draw_airfoil_outline_claim (interp : List ℚ → List ℚ → ℚ → ℚ)
    (raw : List QPt) (chord : ℚ) : List QPt :=
  ((((arcResampled interp raw 0).dropLast ++ (arcResampled interp raw 1).dropLast)
      ++ arcResampled interp raw 2) ++ [((1 : ℚ), (0 : ℚ))]).map
    (fun p => (p.1 * chord, p.2 * chord))

/-- Straight-line interpolant through exactly two data points: on two-point
data the scipy `PchipInterpolator` degenerates to this straight line (its
endpoint derivatives both equal the secant slope). -/
def lin2 (xs ys : List ℚ) (x : ℚ) : ℚ :=
  match xs, ys with
  | [x0, x1], [y0, y1] => y0 + (y1 - y0) * (x - x0) / (x1 - x0)
  | _, _ => 0

/-- Embeds `dxfdrawer.divide`: the point dividing the segment `p0 → p1` internally in
ratio `r` (`points[0] + ratio * (points[1] - points[0])`). -/
def divide (p0 p1 : QPt) (r : ℚ) : QPt :=
  (p0.1 + r * (p1.1 - p0.1), p0.2 + r * (p1.2 - p0.2))

/-- Embeds `Rib.__draw_bracing_holes`: both division points are computed, the list is
truncated to one entry when `bracing_hole_pos == 0.5`, and each center is
emitted as a circle of radius `rearspar.diameter / 2`. -/
def draw_bracing_holes (beam_ctr rearspar_ctr : QPt) (pos diam : ℚ) :
    List (QPt × ℚ) :=
  let centers := [divide beam_ctr rearspar_ctr pos,
                  divide beam_ctr rearspar_ctr (1 - pos)]
  let centers := if pos = 1/2 then centers.take 1 else centers
  centers.map (fun c => (c, diam / 2))

/-- Standard linear interpolation between two points at parameter `r`, as the
specification words the bracing-hole centers. -/
def lerpPt (a b : QPt) (r : ℚ) : QPt :=
  ((1 - r) * a.1 + r * b.1, (1 - r) * a.2 + r * b.2)

/-- Embeds `RibCollection.draw_each`: a plain `for` loop over the ribs with no
exception handling.  The draw attempt of each rib is an `Except` value; the loop
counts the draws completed before the first failure, which aborts the loop
and propagates (Python exception semantics). -/
def draw_each {ε : Type} : List (Except ε Unit) → Nat × Option ε
  | [] => (0, none)
  | Except.ok _ :: rest => ((draw_each rest).1 + 1, (draw_each rest).2)
  | Except.error e :: _ => (0, some e)

/-- Concrete airfoil A for the mixing test: upper surface `y = 0.1 x`,
lower surface `y = -0.1 x` (a triangular profile). -/
def foilA : List QPt := [(1, 1/10), (0, 0), (1, -1/10)]

/-- Concrete airfoil B for the mixing test: upper surface `y = 0.2 x`,
lower surface `y = -0.2 x`. -/
def foilB : List QPt := [(1, 1/5), (0, 0), (1, -1/5)]

/-- Concrete wing outline for the plank-end segmentation test (chord 1):
upper surface `[(1,0), (4/5,7/20), (1/5,1/10), (1/10,1/20), (0,0)]`,
lower surface continuing `[(1/2,-1/10), (1,-1/100)]`. -/
def wingW : List QPt :=
  [(1, 0), (4/5, 7/20), (1/5, 1/10), (1/10, 1/20), (0, 0),
   (1/2, -1/10), (1, -1/100)]

/-- Concrete raw airfoil for the resampler test: `argmax y = 1`,
`argmin y = 2`, so each of the three sections has exactly two points and the
PCHIP interpolant through each section is the straight line `lin2`. -/
def rawC5 : List QPt := [(1, 1/20), (1/2, 3/10), (1/5, -1/5), (1, -1/100)]

/-! Real-arithmetic embedding of the trigonometric drawing code. -/

/-- Embeds `np.deg2rad`: degrees to radians. -/
noncomputable def deg2rad (x : ℝ) : ℝ := x * Real.pi / 180

/-- Embeds `dxfdrawer.direct`: the vector of length `dist` in direction `theta`
(`dist * [cos(theta), sin(theta)]`). -/
noncomputable def direct (dist theta : ℝ) : ℝ × ℝ :=
  (dist * Real.cos theta, dist * Real.sin theta)

/-- Embeds `np.arctan2 y x`, modelled as the argument of the complex number `x + i y`. -/
noncomputable def arctanTwo (y x : ℝ) : ℝ := Complex.arg ⟨x, y⟩

/-- Embeds `_RearSpar.__init__`: it stores `theta = -np.deg2rad(input degrees)`. -/
noncomputable def rearspar_theta (angle : ℝ) : ℝ := -(deg2rad angle)

/-- Embeds `Rib.__draw_rearspar_hole`: it computes the center as
`beam_hole_center + direct(rearspar.dist, np.deg2rad(rearspar.theta))` —
note the second `deg2rad` applied to the already-radian stored angle. -/
noncomputable def rearspar_hole_center (beam : ℝ × ℝ) (dist thetaStored : ℝ) :
    ℝ × ℝ :=
  beam + direct dist (deg2rad thetaStored)

/-- The rear-spar hole center as the specification words it: the beam-hole
center displaced by the polar vector `(dist, stored theta)`. -/
noncomputable def rearspar_hole_center_spec (beam : ℝ × ℝ) (dist thetaStored : ℝ) :
    ℝ × ℝ :=
  beam + direct dist thetaStored

/-- The horizontal crosshair of `Rib.__draw_main_beam_hole`:
`left = center + direct(chord*beam_hole_x*1.2, aoa+pi)` and
`right = left + direct(chord*1.2, aoa)`. -/
noncomputable def beam_crosshair_h (center : ℝ × ℝ) (chord bx aoaDeg : ℝ) :
    (ℝ × ℝ) × (ℝ × ℝ) :=
  let aoa := deg2rad aoaDeg
  let left_point := center + direct (chord * bx * 1.2) (aoa + Real.pi)
  (left_point, left_point + direct (chord * 1.2) aoa)

/-- The vertical crosshair of `Rib.__draw_main_beam_hole`: both endpoints are
displaced from the center by the full local thickness `upper_y - lower_y`,
at angles `aoa + pi/2` and `aoa - pi/2`. -/
noncomputable def beam_crosshair_v (center : ℝ × ℝ) (aoaDeg upper_y lower_y : ℝ) :
    (ℝ × ℝ) × (ℝ × ℝ) :=
  let aoa := deg2rad aoaDeg
  let thickness := upper_y - lower_y
  (center + direct thickness (aoa + Real.pi / 2),
   center + direct thickness (aoa - Real.pi / 2))

/-- Euclidean distance between two points. -/
noncomputable def ptDist (p q : ℝ × ℝ) : ℝ :=
  Real.sqrt ((q.1 - p.1) ^ 2 + (q.2 - p.2) ^ 2)

/-- The angle used by `dxfdrawer.offset` for a tangent segment `a → b`:
`arctan2(dy, dx) + pi/2`, plus `pi` for the righthand direction. -/
noncomputable def offTheta (a b : ℝ × ℝ) (dir : String) : ℝ :=
  let t := arctanTwo (b.2 - a.2) (b.1 - a.1) + Real.pi / 2
  if dir = "righthand" then t + Real.pi else t

/-- One offset point: `p + distance * [cos(theta), sin(theta)]`. -/
noncomputable def offPoint (p : ℝ × ℝ) (d t : ℝ) : ℝ × ℝ :=
  (p.1 + d * Real.cos t, p.2 + d * Real.sin t)

/-- The interior loop of `dxfdrawer.offset`: each interior point is moved
along the normal of the central difference of its two neighbors. -/
noncomputable def offsetMid (d : ℝ) (dir : String) : List (ℝ × ℝ) → List (ℝ × ℝ)
  | a :: b :: c :: rest => offPoint b d (offTheta a c dir) :: offsetMid d dir (b :: c :: rest)
  | _ => []

/-- Embeds `dxfdrawer.offset` (the module-level function): the first point uses
the first segment, interior points the central difference, the last point the
last segment.  (On fewer than two points the Python code raises an index
error; that case is outside the scope of the claims and returns `[]` here.) -/
noncomputable def offset (points : List (ℝ × ℝ)) (d : ℝ) (dir : String) :
    List (ℝ × ℝ) :=
  match points with
  | p0 :: p1 :: rest =>
    (offPoint p0 d (offTheta p0 p1 dir) :: offsetMid d dir (p0 :: p1 :: rest)) ++
      [offPoint ((p1 :: rest).getLastD p0) d
        (offTheta ((p0 :: p1 :: rest).dropLast.getLastD p0)
          ((p1 :: rest).getLastD p0) dir)]
  | _ => []

/-- The unit lefthand normal of the segment `p → q`, as the specification
describes the offset displacement. -/
noncomputable def leftNormal (p q : ℝ × ℝ) : ℝ × ℝ :=
  (-(q.2 - p.2) / ptDist p q, (q.1 - p.1) / ptDist p q)

/-- Displace a point by `d` along a direction vector `n`. -/
noncomputable def shiftBy (p : ℝ × ℝ) (d : ℝ) (n : ℝ × ℝ) : ℝ × ℝ :=
  (p.1 + d * n.1, p.2 + d * n.2)

/-- Dot product of two plane vectors. -/
noncomputable def dotPt (p q : ℝ × ℝ) : ℝ := p.1 * q.1 + p.2 * q.2

/-- Componentwise difference of two points. -/
noncomputable def psub (p q : ℝ × ℝ) : ℝ × ℝ := (p.1 - q.1, p.2 - q.2)

/-! Helper lemmas. -/

theorem length_linspace (a b : ℚ) (n : Nat) : (linspace a b n).length = n := by
  unfold linspace
  rw [List.length_map, List.length_range]

theorem length_resampleSec (interp : List ℚ → List ℚ → ℚ → ℚ) (i : Nat)
    (sec : List QPt) :
    (resampleSec interp i sec).length = NUM_POINTS_TO_DRAW_OUTLINE := by
  unfold resampleSec
  split_ifs <;> simp [List.length_zip, length_linspace]

theorem divide_eq_lerpPt (beam rs : QPt) (r : ℚ) : divide beam rs r = lerpPt beam rs r := by
  unfold divide lerpPt
  exact Prod.ext_iff.mpr ⟨by ring, by ring⟩

/-- Claim C8: the bracing-hole centers are the linear interpolation points at
ratios `pos` and `1 - pos` along the beam-center-to-rearspar-center segment,
emitted as circles of radius `diameter / 2` (so of the rear-spar diameter);
exactly one circle when `pos = 1/2`, exactly two otherwise. -/
theorem bracing_holes_placement (beam rs : QPt) (pos diam : ℚ) :
    draw_bracing_holes beam rs pos diam =
      (if pos = 1/2 then [(lerpPt beam rs pos, diam / 2)]
       else [(lerpPt beam rs pos, diam / 2), (lerpPt beam rs (1 - pos), diam / 2)]) ∧
    (draw_bracing_holes beam rs pos diam).length = (if pos = 1/2 then 1 else 2) := by
  unfold draw_bracing_holes
  constructor
  · split_ifs with h <;> simp [divide_eq_lerpPt]
  · split_ifs with h <;> simp

theorem draw_each_replicate_ok (ε : Type) (n : Nat) :
    draw_each (List.replicate n (Except.ok ()) : List (Except ε Unit)) = (n, none) := by
  induction n with
  | zero => simp [draw_each]
  | succ k ih => simp [List.replicate_succ, draw_each, ih]

/-- Claim C9 (amended): in the batch draw loop, the ribs drawn are exactly
those before the first failure — the failure aborts the remaining ribs — and
the error is propagated to the caller (reported, not swallowed). -/
theorem draw_each_amended (ε : Type) (n : Nat) (e : ε) (rest : List (Except ε Unit)) :
    draw_each (List.replicate n (Except.ok ()) ++ Except.error e :: rest) = (n, some e) ∧
    draw_each (List.replicate n (Except.ok ()) : List (Except ε Unit)) = (n, none) := by
  refine ⟨?_, draw_each_replicate_ok ε n⟩
  induction n with
  | zero => simp [draw_each]
  | succ k ih => simp [List.replicate_succ, draw_each, ih]

/-- Claim C9 (counterexample): with three ribs of which the second fails,
only one rib completes its drawing — the failure does prevent the third rib
from being drawn (the claim would require two completed ribs). -/
theorem draw_each_cex :
    draw_each [Except.ok (), Except.error (7 : Nat), Except.ok ()] = (1, some 7) ∧
    ¬ ((draw_each [Except.ok (), Except.error (7 : Nat), Except.ok ()]).1 = 2) := by
  decide

/-- Claim C10: `get_points` with a filter other than `all`, `upper`, `lower`
returns no point sequence (`None`) rather than raising. -/
theorem get_points_unknown_filter (pts : List QPt) (filt : String)
    (h1 : filt ≠ "all") (h2 : filt ≠ "upper") (h3 : filt ≠ "lower") :
    get_points pts filt = none := by
  simp [get_points, h1, h2, h3]

/-- Witness for `get_points_unknown_filter` at the filter string `chord`. -/
theorem get_points_unknown_filter_witness :
    get_points [((0 : ℚ), (0 : ℚ))] "chord" = none :=
  get_points_unknown_filter [((0 : ℚ), (0 : ℚ))] "chord"
    (by decide) (by decide) (by decide)

unseal Rat.add Rat.mul Rat.sub Rat.inv in
/-- Claim C1: `mix` with ratio 0 returns the samples of the SECOND airfoil,
not of the first, and ratio 1 returns those of the first — the code blends as
`ratio * airfoil0 + (1 - ratio) * airfoil1`, contradicting its own docstring
(ratio 0 must yield `airfoil0`) and the mixing-identity contract.  At the
grid point `x = 1` (the head of the assembled loop), the upper sample of
`foilA` is `1/10` and that of `foilB` is `1/5`: `mix(foilA, foilB, 0)`
carries `1/5`. -/
theorem mix_zero_returns_second_airfoil :
    (mixQ foilA foilB 0).head? = some (1, 1/5) ∧
    (mixQ foilA foilB 1).head? = some (1, 1/10) ∧
    interp1d ((get_points foilA "upper").getD []) 1 = 1/10 ∧
    interp1d ((get_points foilB "upper").getD []) 1 = 1/5 ∧
    ((1 : ℚ)/5) ≠ ((1 : ℚ)/10) := by
  decide

unseal Rat.add Rat.mul Rat.sub Rat.inv in
/-- Claim C3: on `wingW` (chord 1, upper plank-end fraction 3/10) the index
computed by `np.sum(upper_points > threshold)` counts entries of BOTH
coordinate columns (here 3: two x-entries and one y-entry), not only the
points whose x exceeds the threshold (2), so the capped prefix taken by the
code differs from the specified one. -/
theorem plank_end_count_spans_both_columns :
    npSumGt ((get_points wingW "upper").getD []) (1 * (3/10)) = 3 ∧
    xCountGt ((get_points wingW "upper").getD []) (1 * (3/10)) = 2 ∧
    ribcap_upper_segment wingW 1 (3/10) ≠ ribcap_upper_segment_spec wingW 1 (3/10) := by
  decide

set_option maxRecDepth 16000 in
unseal Rat.add Rat.mul Rat.sub Rat.inv in
/-- Claim C5 (counterexample): on the concrete raw airfoil `rawC5` (whose
three sections have two points each, so the PCHIP interpolant is the straight
line `lin2`), the resampled outline of the code differs from the construction
stated in the claim, which keeps the last point of the final arc: the code
emits `3 * 199 + 1 = 598` points, the construction of the claim `599`. -/
theorem resampler_concat_cex :
    draw_airfoil_outline lin2 rawC5 1 ≠ draw_airfoil_outline_claim lin2 rawC5 1 := by
  intro h
  have h2 := congrArg List.length h
  revert h2
  decide

/-- Claim C5 (amended): the resampled outline is the concatenation of the
three resampled arcs in outline order with the last point of EVERY arc
dropped (the dropped last point of the final arc is superseded by the appended
trailing-edge point `(1, 0)`); after scaling by the chord the final point is
exactly `(chord, 0)`, and the outline always has `3*(200-1)+1 = 598` points. -/
theorem resampler_concat_amended (interp : List ℚ → List ℚ → ℚ → ℚ)
    (raw : List QPt) (chord : ℚ) :
    (draw_airfoil_outline interp raw chord).length =
      3 * (NUM_POINTS_TO_DRAW_OUTLINE - 1) + 1 ∧
    (draw_airfoil_outline interp raw chord).getLast? = some (chord, 0) ∧
    draw_airfoil_outline interp raw chord =
      (arcResampled interp raw 0).dropLast.map (fun p => (p.1 * chord, p.2 * chord)) ++
      (arcResampled interp raw 1).dropLast.map (fun p => (p.1 * chord, p.2 * chord)) ++
      (arcResampled interp raw 2).dropLast.map (fun p => (p.1 * chord, p.2 * chord)) ++
      [(chord, 0)] := by
  refine ⟨?_, ?_, ?_⟩
  · unfold draw_airfoil_outline
    simp [List.length_dropLast, length_resampleSec, arcResampled]
    omega
  · unfold draw_airfoil_outline
    rw [List.map_append]
    simp
  · unfold draw_airfoil_outline
    simp [List.map_append]

theorem exists_minX : ∀ (pts : List QPt), pts ≠ [] →
    ∃ p ∈ pts, ∀ q ∈ pts, p.1 ≤ q.1 := by
  intro pts
  induction pts with
  | nil => intro h; exact absurd rfl h
  | cons p rest ih =>
    intro _
    cases rest with
    | nil =>
      refine ⟨p, List.mem_singleton_self p, ?_⟩
      intro q hq
      rw [List.mem_singleton] at hq
      rw [hq]
    | cons b t =>
      obtain ⟨m, hm, hmin⟩ := ih (by simp)
      by_cases hle : p.1 ≤ m.1
      · refine ⟨p, List.mem_cons_self p (b :: t), ?_⟩
        intro q hq
        rcases List.mem_cons.mp hq with h | h
        · rw [h]
        · exact le_trans hle (hmin q h)
      · refine ⟨m, List.mem_cons_of_mem p hm, ?_⟩
        intro q hq
        rcases List.mem_cons.mp hq with h | h
        · rw [h]; exact le_of_not_le hle
        · exact hmin q h

theorem argminX_lt_length (pts : List QPt) (h : pts ≠ []) :
    argminX pts < pts.length := by
  apply List.findIdx_lt_length_of_exists
  obtain ⟨m, hm, hmin⟩ := exists_minX pts h
  exact ⟨m, hm, by simpa [isMinX] using hmin⟩

theorem argminX_is_min (pts : List QPt) (h : pts ≠ []) :
    ∀ q ∈ pts, (pts.get ⟨argminX pts, argminX_lt_length pts h⟩).1 ≤ q.1 := by
  have hw : pts.findIdx (isMinX pts) < pts.length := argminX_lt_length pts h
  have := @List.findIdx_getElem QPt (isMinX pts) pts hw
  simpa [isMinX, argminX] using this

/-- Claim C7: for an airfoil point sequence with a unique minimum-x point,
the last point of the upper surface equals the first point of the lower
surface, and both equal the minimum-x point of the full sequence. -/
theorem leading_edge_split (pts : List QPt) (hne : pts ≠ [])
    (huniq : ∀ p ∈ pts, ∀ q ∈ pts,
      (∀ r ∈ pts, p.1 ≤ r.1) → (∀ r ∈ pts, q.1 ≤ r.1) → p = q) :
    ∃ u lo m, get_points pts "upper" = some u ∧ get_points pts "lower" = some lo ∧
      get_points pts "all" = some pts ∧
      u.getLast? = some m ∧ lo.head? = some m ∧ m ∈ pts ∧
      (∀ q ∈ pts, m.1 ≤ q.1) ∧
      (∀ q ∈ pts, (∀ r ∈ pts, q.1 ≤ r.1) → q = m) := by
  have hlt := argminX_lt_length pts hne
  refine ⟨pts.take (argminX pts + 1), pts.drop (argminX pts),
    pts.get ⟨argminX pts, hlt⟩, ?_, ?_, ?_, ?_, ?_, ?_, ?_, ?_⟩
  · simp [get_points]
  · simp [get_points]
  · simp [get_points]
  · rw [List.getLast?_eq_getElem?]
    have hlen : (pts.take (argminX pts + 1)).length = argminX pts + 1 := by
      rw [List.length_take]
      omega
    rw [hlen, Nat.add_sub_cancel, List.getElem?_take]
    rw [if_pos (by omega)]
    simp
  · rw [List.head?_drop]
    simp
  · exact List.get_mem pts (argminX pts) hlt
  · exact argminX_is_min pts hne
  · intro q hq hqmin
    exact huniq q hq (pts.get ⟨argminX pts, hlt⟩)
      (List.get_mem pts (argminX pts) hlt) hqmin (argminX_is_min pts hne)

/-- Witness for `leading_edge_split` on the triangular airfoil
`[(1,1), (0,0), (1,-1)]`. -/
theorem leading_edge_split_witness :
    ∃ u lo m,
      get_points [((1:ℚ), (1:ℚ)), (0, 0), (1, -1)] "upper" = some u ∧
      get_points [((1:ℚ), (1:ℚ)), (0, 0), (1, -1)] "lower" = some lo ∧
      get_points [((1:ℚ), (1:ℚ)), (0, 0), (1, -1)] "all" =
        some [((1:ℚ), (1:ℚ)), (0, 0), (1, -1)] ∧
      u.getLast? = some m ∧ lo.head? = some m ∧
      m ∈ [((1:ℚ), (1:ℚ)), (0, 0), (1, -1)] ∧
      (∀ q ∈ [((1:ℚ), (1:ℚ)), (0, 0), (1, -1)], m.1 ≤ q.1) ∧
      (∀ q ∈ [((1:ℚ), (1:ℚ)), (0, 0), (1, -1)],
        (∀ r ∈ [((1:ℚ), (1:ℚ)), (0, 0), (1, -1)], q.1 ≤ r.1) → q = m) :=
  leading_edge_split [((1:ℚ), (1:ℚ)), (0, 0), (1, -1)] (by simp) (by decide)

/-- Claim C2: the stored rear-spar angle is already in radians
(`-deg2rad(input)`), and the specified center is the beam center displaced by
the polar vector `(dist, stored theta)` — at input angle 90 degrees and dist 30 that
is `(0, -30)`.  The drawing code applies `np.deg2rad` to the stored angle a
second time, so its emitted center differs (its x-component is
`30*cos(pi^2/360) > 0`). -/
theorem rearspar_center_double_conversion :
    rearspar_hole_center_spec (0, 0) 30 (rearspar_theta 90) = ((0 : ℝ), (-30 : ℝ)) ∧
    rearspar_hole_center (0, 0) 30 (rearspar_theta 90) ≠
      rearspar_hole_center_spec (0, 0) 30 (rearspar_theta 90) := by
  have hth : rearspar_theta 90 = -(Real.pi / 2) := by
    unfold rearspar_theta deg2rad
    ring
  have hspec : rearspar_hole_center_spec (0, 0) 30 (rearspar_theta 90) =
      ((0 : ℝ), (-30 : ℝ)) := by
    rw [rearspar_hole_center_spec, hth, direct]
    rw [Real.cos_neg, Real.sin_neg, Real.cos_pi_div_two, Real.sin_pi_div_two]
    rw [Prod.mk_add_mk]
    norm_num
  refine ⟨hspec, ?_⟩
  rw [hspec]
  intro hEq
  have h1 := congrArg Prod.fst hEq
  have hpos : 0 < Real.cos (deg2rad (rearspar_theta 90)) := by
    have hval : deg2rad (rearspar_theta 90) = -(Real.pi ^ 2 / 360) := by
      rw [hth]; unfold deg2rad; ring
    rw [hval, Real.cos_neg]
    apply Real.cos_pos_of_mem_Ioo
    constructor
    · have h0 := Real.pi_pos
      nlinarith
    · have h3 := Real.pi_gt_three
      have h4 := Real.pi_lt_four
      nlinarith
  rw [rearspar_hole_center, direct, Prod.mk_add_mk] at h1
  simp only [Prod.fst] at h1
  nlinarith [hpos, h1]

/-- Claim C4 (counterexample): at center (1/2,0), chord 1, beam_hole_x 1/2,
aoa 0 degrees, upper_y 1/10, lower_y -1/10, the forward endpoint of the
horizontal crosshair is (1.1, 0), not `center + direct(1.2*chord, aoa) =
(1.7, 0)` as the claim states, and the vertical crosshair spans 2/5, twice
the local thickness 1/5. -/
theorem beam_crosshair_cex :
    (beam_crosshair_h ((1 : ℝ)/2, 0) 1 (1/2) 0).2 ≠
      ((1 : ℝ)/2, 0) + direct (1 * 1.2) (deg2rad 0) ∧
    ptDist (beam_crosshair_v ((1 : ℝ)/2, 0) 0 (1/10) (-(1/10))).1
        (beam_crosshair_v ((1 : ℝ)/2, 0) 0 (1/10) (-(1/10))).2 ≠
      ((1 : ℝ)/10 - (-(1/10))) := by
  have hz : deg2rad 0 = 0 := by unfold deg2rad; ring
  constructor
  · intro hEq
    have h1 := congrArg Prod.fst hEq
    rw [beam_crosshair_h] at h1
    simp only [hz, zero_add, direct, Real.cos_pi, Real.sin_pi, Real.cos_zero,
      Real.sin_zero, Prod.mk_add_mk, Prod.fst] at h1
    norm_num at h1
  · rw [beam_crosshair_v]
    simp only [hz, zero_add, zero_sub, direct, Real.cos_pi_div_two,
      Real.sin_pi_div_two, Real.cos_neg, Real.sin_neg, Prod.mk_add_mk]
    rw [ptDist]
    simp only [Prod.fst, Prod.snd]
    have harg : ((1:ℝ)/2 + (1/10 - -(1/10)) * 0 - (1/2 + (1/10 - -(1/10)) * 0)) ^ 2 +
        ((1/10 - -(1/10)) * -1 - (1/10 - -(1/10)) * 1) ^ 2 = (2/5 : ℝ) ^ 2 := by norm_num
    rw [harg, Real.sqrt_sq (by norm_num)]
    norm_num

theorem ptDist_add_direct (p : ℝ × ℝ) (L t : ℝ) (hL : 0 ≤ L) :
    ptDist p (p + direct L t) = L := by
  obtain ⟨a, b⟩ := p
  rw [direct, Prod.mk_add_mk]
  show Real.sqrt ((a + L * Real.cos t - a) ^ 2 + (b + L * Real.sin t - b) ^ 2) = L
  have key := Real.sin_sq_add_cos_sq t
  have harg : (a + L * Real.cos t - a) ^ 2 + (b + L * Real.sin t - b) ^ 2 = L ^ 2 := by
    have hexp : (a + L * Real.cos t - a) ^ 2 + (b + L * Real.sin t - b) ^ 2 =
        L ^ 2 * (Real.sin t ^ 2 + Real.cos t ^ 2) := by ring
    rw [hexp, key, mul_one]
  rw [harg, Real.sqrt_sq hL]

/-- Claim C4 (amended): the horizontal crosshair runs from
`center + direct(1.2*beam_hole_x*chord, aoa+pi)` forward by `1.2*chord` FROM
THAT BACKWARD ENDPOINT (equivalently to
`center + direct(1.2*chord*(1-beam_hole_x), aoa)`), so its total length is
exactly `1.2*chord`; the endpoints of the vertical crosshair sit a full local
thickness `upper_y - lower_y` above and below the center along the rotated
vertical, so its total span is TWICE the local thickness. -/
theorem beam_crosshair_amended (center : ℝ × ℝ) (chord bx aoaDeg upper_y lower_y : ℝ)
    (hc : 0 ≤ chord) (ht : lower_y ≤ upper_y) :
    (beam_crosshair_h center chord bx aoaDeg).1 =
      center + direct (chord * bx * 1.2) (deg2rad aoaDeg + Real.pi) ∧
    (beam_crosshair_h center chord bx aoaDeg).2 =
      (beam_crosshair_h center chord bx aoaDeg).1 +
        direct (chord * 1.2) (deg2rad aoaDeg) ∧
    (beam_crosshair_h center chord bx aoaDeg).2 =
      center + direct (chord * 1.2 * (1 - bx)) (deg2rad aoaDeg) ∧
    ptDist (beam_crosshair_h center chord bx aoaDeg).1
      (beam_crosshair_h center chord bx aoaDeg).2 = 1.2 * chord ∧
    (beam_crosshair_v center aoaDeg upper_y lower_y).1 =
      center + direct (upper_y - lower_y) (deg2rad aoaDeg + Real.pi / 2) ∧
    (beam_crosshair_v center aoaDeg upper_y lower_y).2 =
      center + direct (upper_y - lower_y) (deg2rad aoaDeg - Real.pi / 2) ∧
    ptDist (beam_crosshair_v center aoaDeg upper_y lower_y).1
      (beam_crosshair_v center aoaDeg upper_y lower_y).2 = 2 * (upper_y - lower_y) := by
  obtain ⟨cx, cy⟩ := center
  refine ⟨rfl, rfl, ?_, ?_, rfl, rfl, ?_⟩
  · simp only [beam_crosshair_h, direct, Real.cos_add_pi, Real.sin_add_pi, Prod.mk_add_mk]
    exact Prod.ext_iff.mpr ⟨by ring, by ring⟩
  · have h2 : (beam_crosshair_h (cx, cy) chord bx aoaDeg).2 =
        (beam_crosshair_h (cx, cy) chord bx aoaDeg).1 +
          direct (chord * 1.2) (deg2rad aoaDeg) := rfl
    rw [h2, ptDist_add_direct _ _ _ (by nlinarith [hc])]
    ring
  · have hv : (beam_crosshair_v (cx, cy) aoaDeg upper_y lower_y).2 =
        (beam_crosshair_v (cx, cy) aoaDeg upper_y lower_y).1 +
          direct (2 * (upper_y - lower_y)) (deg2rad aoaDeg - Real.pi / 2) := by
      simp only [beam_crosshair_v, direct, Real.cos_add_pi_div_two,
        Real.sin_add_pi_div_two, Real.cos_sub_pi_div_two, Real.sin_sub_pi_div_two,
        Prod.mk_add_mk]
      exact Prod.ext_iff.mpr ⟨by ring, by ring⟩
    rw [hv, ptDist_add_direct _ _ _ (by linarith)]

/-- Witness for `beam_crosshair_amended` at center (0,0), chord 2,
beam_hole_x 1/4, aoa 0 degrees, upper_y 1, lower_y 0. -/
theorem beam_crosshair_amended_witness :
    (beam_crosshair_h ((0 : ℝ), (0 : ℝ)) 2 (1/4) 0).1 =
      ((0 : ℝ), (0 : ℝ)) + direct (2 * (1/4) * 1.2) (deg2rad 0 + Real.pi) ∧
    (beam_crosshair_h ((0 : ℝ), (0 : ℝ)) 2 (1/4) 0).2 =
      (beam_crosshair_h ((0 : ℝ), (0 : ℝ)) 2 (1/4) 0).1 +
        direct (2 * 1.2) (deg2rad 0) ∧
    (beam_crosshair_h ((0 : ℝ), (0 : ℝ)) 2 (1/4) 0).2 =
      ((0 : ℝ), (0 : ℝ)) + direct (2 * 1.2 * (1 - 1/4)) (deg2rad 0) ∧
    ptDist (beam_crosshair_h ((0 : ℝ), (0 : ℝ)) 2 (1/4) 0).1
      (beam_crosshair_h ((0 : ℝ), (0 : ℝ)) 2 (1/4) 0).2 = 1.2 * 2 ∧
    (beam_crosshair_v ((0 : ℝ), (0 : ℝ)) 0 1 0).1 =
      ((0 : ℝ), (0 : ℝ)) + direct (1 - 0) (deg2rad 0 + Real.pi / 2) ∧
    (beam_crosshair_v ((0 : ℝ), (0 : ℝ)) 0 1 0).2 =
      ((0 : ℝ), (0 : ℝ)) + direct (1 - 0) (deg2rad 0 - Real.pi / 2) ∧
    ptDist (beam_crosshair_v ((0 : ℝ), (0 : ℝ)) 0 1 0).1
      (beam_crosshair_v ((0 : ℝ), (0 : ℝ)) 0 1 0).2 = 2 * (1 - 0) :=
  beam_crosshair_amended ((0 : ℝ), (0 : ℝ)) 2 (1/4) 0 1 0 (by norm_num) (by norm_num)

theorem offsetMid_length (d : ℝ) (dir : String) :
    ∀ l : List (ℝ × ℝ), (offsetMid d dir l).length = l.length - 2 := by
  intro l
  induction l with
  | nil => simp [offsetMid]
  | cons a t ih =>
    cases t with
    | nil => simp [offsetMid]
    | cons b t2 =>
      cases t2 with
      | nil => simp [offsetMid]
      | cons c t3 =>
        rw [offsetMid]
        simp only [List.length_cons]
        rw [ih]
        simp only [List.length_cons]
        omega

theorem ptDist_pos {p q : ℝ × ℝ} (h : p ≠ q) : 0 < ptDist p q := by
  rw [ptDist]
  apply Real.sqrt_pos.mpr
  have hne : q.1 - p.1 ≠ 0 ∨ q.2 - p.2 ≠ 0 := by
    by_contra hc
    push_neg at hc
    apply h
    have h1 : p.1 = q.1 := by have := hc.1; linarith
    have h2 : p.2 = q.2 := by have := hc.2; linarith
    exact Prod.ext_iff.mpr ⟨h1, h2⟩
  rcases hne with h1 | h1
  · have hp : 0 < |q.1 - p.1| := abs_pos.mpr h1
    nlinarith [sq_nonneg (q.2 - p.2), sq_abs (q.1 - p.1)]
  · have hp : 0 < |q.2 - p.2| := abs_pos.mpr h1
    nlinarith [sq_nonneg (q.1 - p.1), sq_abs (q.2 - p.2)]

theorem ptDist_sq (p q : ℝ × ℝ) :
    ptDist p q ^ 2 = (q.1 - p.1) ^ 2 + (q.2 - p.2) ^ 2 := by
  rw [ptDist]
  exact Real.sq_sqrt (by positivity)

theorem cos_sin_offTheta (p q : ℝ × ℝ) (h : p ≠ q) :
    Real.cos (offTheta p q "lefthand") = -(q.2 - p.2) / ptDist p q ∧
    Real.sin (offTheta p q "lefthand") = (q.1 - p.1) / ptDist p q := by
  have hz : (⟨q.1 - p.1, q.2 - p.2⟩ : ℂ) ≠ 0 := by
    intro hc
    apply h
    have h1 := congrArg Complex.re hc
    have h2 := congrArg Complex.im hc
    simp at h1 h2
    exact Prod.ext_iff.mpr ⟨by linarith, by linarith⟩
  have habs : Complex.abs ⟨q.1 - p.1, q.2 - p.2⟩ = ptDist p q := by
    rw [Complex.abs_apply, Complex.normSq_mk, ptDist]
    congr 1
    ring
  have hstr : offTheta p q "lefthand" =
      arctanTwo (q.2 - p.2) (q.1 - p.1) + Real.pi / 2 := by
    simp [offTheta]
  rw [hstr]
  unfold arctanTwo
  constructor
  · rw [Real.cos_add_pi_div_two, Complex.sin_arg, habs]
    rw [neg_div]
  · rw [Real.sin_add_pi_div_two, Complex.cos_arg hz, habs]

theorem offset_two (p q : ℝ × ℝ) (d : ℝ) (h : p ≠ q) :
    offset [p, q] d "lefthand" =
      [shiftBy p d (leftNormal p q), shiftBy q d (leftNormal p q)] := by
  obtain ⟨hcos, hsin⟩ := cos_sin_offTheta p q h
  rw [offset]
  simp only [offsetMid, List.getLastD_cons, List.getLastD_nil, List.dropLast,
    List.nil_append, List.cons_append]
  rw [offPoint, offPoint, hcos, hsin, shiftBy, shiftBy, leftNormal]

theorem ptDist_shift_shift (p q : ℝ × ℝ) (d : ℝ) (n : ℝ × ℝ) :
    ptDist (shiftBy p d n) (shiftBy q d n) = ptDist p q := by
  rw [shiftBy, shiftBy, ptDist, ptDist]
  congr 1
  ring

/-- Claim C6: `offset` preserves the number of points for every polyline with
at least two points; offsetting a straight two-point segment by `d` lefthand
moves both endpoints by `d` along the unit lefthand normal, preserving the
segment length, with displacement exactly perpendicular to the segment and
of norm `|d|`; offsetting by `d` and then `-d` restores the original
segment exactly. -/
theorem offset_invariants (pts : List (ℝ × ℝ)) (dir2 : String) (p q : ℝ × ℝ)
    (d : ℝ) (hlen : 2 ≤ pts.length) (hpq : p ≠ q) :
    (offset pts d dir2).length = pts.length ∧
    offset [p, q] d "lefthand" =
      [shiftBy p d (leftNormal p q), shiftBy q d (leftNormal p q)] ∧
    ptDist (shiftBy p d (leftNormal p q)) (shiftBy q d (leftNormal p q)) =
      ptDist p q ∧
    dotPt (psub (shiftBy p d (leftNormal p q)) p) (psub q p) = 0 ∧
    ptDist p (shiftBy p d (leftNormal p q)) = |d| ∧
    offset (offset [p, q] d "lefthand") (-d) "lefthand" = [p, q] := by
  have hr : ptDist p q ≠ 0 := (ptDist_pos hpq).ne'
  refine ⟨?_, offset_two p q d hpq, ptDist_shift_shift p q d _, ?_, ?_, ?_⟩
  · match pts, hlen with
    | p0 :: p1 :: rest, _ =>
      rw [offset]
      simp only [List.length_append, List.length_cons, List.length_nil]
      rw [offsetMid_length]
      simp only [List.length_cons]
      omega
  · rw [shiftBy, leftNormal, psub, psub, dotPt]
    show (p.1 + d * (-(q.2 - p.2) / ptDist p q) - p.1) * (q.1 - p.1) +
      (p.2 + d * ((q.1 - p.1) / ptDist p q) - p.2) * (q.2 - p.2) = 0
    field_simp
    ring
  · rw [shiftBy, leftNormal, ptDist]
    show Real.sqrt ((p.1 + d * (-(q.2 - p.2) / ptDist p q) - p.1) ^ 2 +
      (p.2 + d * ((q.1 - p.1) / ptDist p q) - p.2) ^ 2) = |d|
    have hsq2 : (q.2 - p.2) ^ 2 + (q.1 - p.1) ^ 2 = ptDist p q ^ 2 := by
      rw [ptDist_sq p q]
      ring
    have harg : (p.1 + d * (-(q.2 - p.2) / ptDist p q) - p.1) ^ 2 +
        (p.2 + d * ((q.1 - p.1) / ptDist p q) - p.2) ^ 2 = d ^ 2 := by
      have hstep : (p.1 + d * (-(q.2 - p.2) / ptDist p q) - p.1) ^ 2 +
          (p.2 + d * ((q.1 - p.1) / ptDist p q) - p.2) ^ 2 =
          d ^ 2 * ((q.2 - p.2) ^ 2 + (q.1 - p.1) ^ 2) / ptDist p q ^ 2 := by
        field_simp
        ring
      rw [hstep, hsq2, mul_div_assoc, div_self (pow_ne_zero 2 hr), mul_one]
    rw [harg, Real.sqrt_sq_eq_abs]
  · have hne2 : shiftBy p d (leftNormal p q) ≠ shiftBy q d (leftNormal p q) := by
      intro hc
      apply hpq
      rw [shiftBy, shiftBy, Prod.ext_iff] at hc
      simp only [Prod.fst, Prod.snd] at hc
      exact Prod.ext_iff.mpr ⟨by linarith [hc.1], by linarith [hc.2]⟩
    rw [offset_two p q d hpq, offset_two _ _ (-d) hne2]
    have hnn : leftNormal (shiftBy p d (leftNormal p q)) (shiftBy q d (leftNormal p q)) =
        leftNormal p q := by
      rw [leftNormal, leftNormal, ptDist_shift_shift]
      rw [shiftBy, shiftBy]
      exact Prod.ext_iff.mpr ⟨by ring_nf, by ring_nf⟩
    rw [hnn]
    have hp2 : shiftBy (shiftBy p d (leftNormal p q)) (-d) (leftNormal p q) = p := by
      rw [shiftBy, shiftBy]
      exact Prod.ext_iff.mpr ⟨by ring, by ring⟩
    have hq2 : shiftBy (shiftBy q d (leftNormal p q)) (-d) (leftNormal p q) = q := by
      rw [shiftBy, shiftBy]
      exact Prod.ext_iff.mpr ⟨by ring, by ring⟩
    rw [hp2, hq2]

/-- Witness for `offset_invariants` on the three-point polyline
`[(0,0), (1,1), (3,1)]` and the straight segment `(0,0) → (2,0)` with
offset distance 5. -/
theorem offset_invariants_witness :
    (offset [((0 : ℝ), (0 : ℝ)), (1, 1), (3, 1)] 5 "lefthand").length =
      ([((0 : ℝ), (0 : ℝ)), (1, 1), (3, 1)] : List (ℝ × ℝ)).length ∧
    offset [((0 : ℝ), (0 : ℝ)), (2, 0)] 5 "lefthand" =
      [shiftBy (0, 0) 5 (leftNormal (0, 0) (2, 0)),
       shiftBy (2, 0) 5 (leftNormal (0, 0) (2, 0))] ∧
    ptDist (shiftBy (0, 0) 5 (leftNormal (0, 0) (2, 0)))
      (shiftBy (2, 0) 5 (leftNormal (0, 0) (2, 0))) = ptDist (0, 0) (2, 0) ∧
    dotPt (psub (shiftBy (0, 0) 5 (leftNormal (0, 0) (2, 0))) (0, 0))
      (psub (2, 0) (0, 0)) = 0 ∧
    ptDist (0, 0) (shiftBy (0, 0) 5 (leftNormal (0, 0) (2, 0))) = |(5 : ℝ)| ∧
    offset (offset [((0 : ℝ), (0 : ℝ)), (2, 0)] 5 "lefthand") (-5) "lefthand" =
      [((0 : ℝ), (0 : ℝ)), (2, 0)] :=
  offset_invariants [((0 : ℝ), (0 : ℝ)), (1, 1), (3, 1)] "lefthand" (0, 0) (2, 0) 5
    (by simp) (by intro hc; exact absurd (congrArg Prod.fst hc) (by norm_num))
